import Mathlib

/-!
Shallow embedding of the cascadia selector library (selector.go).

Go strings are modelled as lists of characters; Go `int` as `Int`
(Go `%` and `/` truncate toward zero, modelled by `Int.tmod` / `Int.tdiv`).
Go pointer identity on tree nodes is modelled by a numeric `id` field:
two node views denote the same heap node exactly when their ids agree.
An `html.Node` is seen through the facets the selectors read: its kind,
tag name (`Data`), attribute list, and its parent together with the
parent's ordered child list (`Parent.Child` in the source).
-/

namespace Cascadia

/-- Node kinds of the external `html` package (`html.NodeType`). -/
inductive NodeType where
  | errorNode
  | textNode
  | documentNode
  | elementNode
  | commentNode
  | doctypeNode
deriving DecidableEq, Repr

/-- A Go string, as its sequence of characters. -/
abbrev GoStr := List Char

/-- The facets of a sibling node read by the structural selectors:
identity (Go pointer), kind and tag name. -/
structure ChildNode where
  id : Nat
  type : NodeType
  data : GoStr
deriving DecidableEq, Repr

/-- The parent facet read by the structural selectors: its ordered
child list (`parent.Child` in the source). -/
structure ParentNode where
  child : List ChildNode
deriving DecidableEq, Repr

/-- View of an `html.Node` as consumed by the selectors: identity,
kind, tag name, ordered attribute list, and optional parent. -/
structure HtmlNode where
  id : Nat
  type : NodeType
  data : GoStr
  attr : List (GoStr × GoStr)
  parent : Option ParentNode
deriving DecidableEq, Repr

/-- A `Selector` is a function which tells whether a node matches or not. -/
abbrev Matcher := HtmlNode → Bool

/-- Embedding of `toLowerASCII`: each ASCII capital letter is lowercased
(byte + 32); all other characters are untouched. -/
def toLowerASCII (s : GoStr) : GoStr :=
  s.map (fun c => if 'A' ≤ c ∧ c ≤ 'Z' then Char.ofNat (c.toNat + 32) else c)

/-- Embedding of `attributeSelector`: the key is folded at construction;
an element node matches when some attribute has exactly that (folded) key
and a value satisfying `f`. -/
def attributeSelector (key : GoStr) (f : GoStr → Bool) : Matcher :=
  let k := toLowerASCII key
  fun n =>
    if n.type = NodeType.elementNode then
      n.attr.any (fun a => a.1 == k && f a.2)
    else false

/-- The five separator characters of `strings.IndexAny(s, " \t\r\n\f")`. -/
def seps : GoStr := [' ', '\t', '\r', '\n', '\x0C']

/-- Embedding of `strings.IndexAny(s, " \t\r\n\f")`: index of the first
separator character, `none` for Go's `-1`. -/
def indexAny : GoStr → Option Nat
  | [] => none
  | c :: cs => if c ∈ seps then some 0 else (indexAny cs).map (· + 1)

/-- Embedding of the value loop of `attributeIncludesSelector`: repeatedly
cut the value at the first separator, comparing each field against `val`. -/
def includesLoop (val : GoStr) : GoStr → Bool
  | [] => false
  | c :: cs =>
    match indexAny (c :: cs) with
    | none => (c :: cs) == val
    | some i => ((c :: cs).take i == val) || includesLoop val ((c :: cs).drop (i + 1))
termination_by s => s.length
decreasing_by
  simp only [List.length_drop, List.length_cons]
  omega

/-- Embedding of `attributeIncludesSelector`. -/
def attributeIncludesSelector (key val : GoStr) : Matcher :=
  attributeSelector key (fun s => includesLoop val s)

/-- Embedding of the value test of `attributeDashmatchSelector`:
the value equals `val`, or is longer, starts with `val`, and the
character at index `len(val)` is a hyphen. -/
def dashValue (val : GoStr) (s : GoStr) : Bool :=
  if s == val then true
  else if s.length ≤ val.length then false
  else if s.take val.length == val && (s.drop val.length).headD ' ' == '-' then true
  else false

/-- Embedding of `attributeDashmatchSelector`. -/
def attributeDashmatchSelector (key val : GoStr) : Matcher :=
  attributeSelector key (dashValue val)

/-- Embedding of `negatedSelector`. -/
def negatedSelector (a : Matcher) : Matcher :=
  fun n => !(a n)

/-- Embedding of `intersectionSelector`. -/
def intersectionSelector (a b : Matcher) : Matcher :=
  fun n => a n && b n

/-- Embedding of the child loop of `nthChildSelector`: walks the parent's
child list with accumulators `i` (position found so far, `-1` for not yet)
and `count`; a child is skipped when it is not an element or, under
`ofType`, has a different name; on finding the node the loop breaks
unless `last` is set. Returns the final `(i, count)` pair. -/
def nthScan (last ofType : Bool) (ndata : GoStr) (nid : Nat) :
    List ChildNode → Int → Int → Int × Int
  | [], i, count => (i, count)
  | c :: cs, i, count =>
    if c.type ≠ NodeType.elementNode ∨ (ofType = true ∧ c.data ≠ ndata) then
      nthScan last ofType ndata nid cs i count
    else if c.id = nid then
      if last then nthScan last ofType ndata nid cs (count + 1) (count + 1)
      else (count + 1, count + 1)
    else
      nthScan last ofType ndata nid cs i (count + 1)

/-- Embedding of the tail of `nthChildSelector` after the child loop, on
the loop's resulting `(i, count)` pair: the position-not-found test, the
mirroring `i = count - i + 1` under `last`, and the an+b match rule with
Go's truncated `%` and `/`. -/
def nthArith (a b : Int) (last : Bool) (r : Int × Int) : Bool :=
  if r.1 = -1 then false
  else
    let i := if last then r.2 - r.1 + 1 else r.1
    let j := i - b
    if a = 0 then decide (j = 0)
    else decide (j.tmod a = 0) && decide (j.tdiv a ≥ 0)

/-- Embedding of `nthChildSelector(a, b, last, ofType)`. -/
def nthChildSelector (a b : Int) (last ofType : Bool) : Matcher :=
  fun n =>
    if n.type ≠ NodeType.elementNode then false
    else
      match n.parent with
      | none => false
      | some parent =>
        nthArith a b last (nthScan last ofType n.data n.id parent.child (-1) 0)

/-- Naive variant of the child loop for the refinement claim: scans every
child to the end, recording the position at the first occurrence of the
node and the full type-filtered count, with no early break. -/
def nthScanFull (ofType : Bool) (ndata : GoStr) (nid : Nat) :
    List ChildNode → Int → Int → Int × Int
  | [], i, count => (i, count)
  | c :: cs, i, count =>
    if c.type ≠ NodeType.elementNode ∨ (ofType = true ∧ c.data ≠ ndata) then
      nthScanFull ofType ndata nid cs i count
    else if c.id = nid ∧ i = -1 then
      nthScanFull ofType ndata nid cs (count + 1) (count + 1)
    else
      nthScanFull ofType ndata nid cs i (count + 1)

/-- Naive variant of `nthChildSelector` built on `nthScanFull`: identical
arithmetic, but the sibling scan always runs to the end of the child list. -/
def nthChildSelectorFull (a b : Int) (last ofType : Bool) : Matcher :=
  fun n =>
    if n.type ≠ NodeType.elementNode then false
    else
      match n.parent with
      | none => false
      | some parent =>
        nthArith a b last (nthScanFull ofType n.data n.id parent.child (-1) 0)

/-- Embedding of the child loop of `onlyChildSelector`: counts the
type-filtered children, returning `false` as soon as the count passes 1,
and `count == 1` at the end of the list. -/
def onlyScan (ofType : Bool) (ndata : GoStr) : List ChildNode → Int → Bool
  | [], count => decide (count = 1)
  | c :: cs, count =>
    if c.type ≠ NodeType.elementNode ∨ (ofType = true ∧ c.data ≠ ndata) then
      onlyScan ofType ndata cs count
    else if count + 1 > 1 then false
    else onlyScan ofType ndata cs (count + 1)

/-- Embedding of `onlyChildSelector(ofType)`. -/
def onlyChildSelector (ofType : Bool) : Matcher :=
  fun n =>
    if n.type ≠ NodeType.elementNode then false
    else
      match n.parent with
      | none => false
      | some parent => onlyScan ofType n.data parent.child 0

/-- A document tree for the traversal `MatchAll`: node payload plus the
ordered list of child subtrees. -/
inductive HTree where
  | node : NodeType → GoStr → List (GoStr × GoStr) → List HTree → HTree

mutual

/-- Embedding of `Selector.MatchAll`: the node itself is tested first,
then the children are visited in document order. -/
def matchAll (s : HTree → Bool) : HTree → List HTree
  | HTree.node ty da ats cs =>
    (if s (HTree.node ty da ats cs) then [HTree.node ty da ats cs] else []) ++
      matchAllList s cs

/-- Embedding of the `for _, child := range n.Child` loop of `MatchAll`. -/
def matchAllList (s : HTree → Bool) : List HTree → List HTree
  | [] => []
  | c :: cs => matchAll s c ++ matchAllList s cs

end

/-- Possible errors of `Compile`: a failure inside the parser, or leftover
input, recorded with the selector text and the number of leftover bytes. -/
inductive CompileError where
  | parseFailure : GoStr → CompileError
  | leftover : GoStr → Nat → CompileError
deriving DecidableEq

/-- Modelled from the spec: the recursive-descent routine
`parseSimpleSelectorSequence` is not part of the provided source, so a
parse run is abstracted as a function from the input to either an error
or a matcher together with the final cursor offset `p.i`.  `goCompile`
is the embedding of `Compile` over such a parse function: a parse error
is returned as is, and when fewer than all bytes were consumed the
result is a `leftover` error carrying the selector text and the count
of unconsumed bytes; only a full parse yields a matcher. -/
def goCompile (parse : GoStr → Except GoStr (Matcher × Nat)) (sel : GoStr) :
    Except CompileError Matcher :=
  match parse sel with
  | Except.error e => Except.error (CompileError.parseFailure e)
  | Except.ok (compiled, i) =>
    if i < sel.length then Except.error (CompileError.leftover sel (sel.length - i))
    else Except.ok compiled

/-! Spec-side definitions, written from the specification's wording, for
comparison with the embedded code. -/

/-- The parent's children that pass the type filter of the structural
selectors: element children, and under `ofType` only those sharing the
node's name. -/
def filteredChildren (ofType : Bool) (ndata : GoStr) (cs : List ChildNode) : List ChildNode :=
  cs.filter (fun c => decide (c.type = NodeType.elementNode) && (!ofType || decide (c.data = ndata)))

/-- Index of the first entry carrying the given identity, `none` when no
entry does. -/
def firstIndexOf (nid : Nat) : List ChildNode → Option Nat
  | [] => none
  | c :: cs => if c.id = nid then some 0 else (firstIndexOf nid cs).map (· + 1)

/-- Splitting a string at every separator character, keeping empty
fields: the list of maximal separator-free runs. -/
def splitOnSeps : GoStr → List GoStr
  | [] => [[]]
  | c :: cs =>
    if c ∈ seps then [] :: splitOnSeps cs
    else
      match splitOnSeps cs with
      | [] => [[c]]
      | f :: rest => (c :: f) :: rest

mutual

/-- Pre-order listing of a tree: the node first, then the pre-order
listings of the children in document order. -/
def preorder : HTree → List HTree
  | HTree.node ty da ats cs => HTree.node ty da ats cs :: preorderList cs

/-- Pre-order listing of a forest, in document order. -/
def preorderList : List HTree → List HTree
  | [] => []
  | c :: cs => preorder c ++ preorderList cs

end

/-- Concrete element node for witnesses: first (and only) element child
of its parent, with a consistent back-reference. -/
def wNode1 : HtmlNode :=
  HtmlNode.mk 5 NodeType.elementNode ['d'] []
    (some (ParentNode.mk [ChildNode.mk 5 NodeType.elementNode ['d']]))

/-- Concrete element node for witnesses: carries a parent back-reference,
but does not occur in that parent's child list. -/
def wNode9 : HtmlNode :=
  HtmlNode.mk 1 NodeType.elementNode ['d'] []
    (some (ParentNode.mk [ChildNode.mk 2 NodeType.elementNode ['d']]))

/-! Helper lemmas. -/

lemma attrSel_iff (key : GoStr) (f : GoStr → Bool) (n : HtmlNode) :
    attributeSelector key f n = true ↔
      n.type = NodeType.elementNode ∧
        ∃ a ∈ n.attr, a.1 = toLowerASCII key ∧ f a.2 = true := by
  unfold attributeSelector
  by_cases h : n.type = NodeType.elementNode
  · simp [h, List.any_eq_true]
  · simp [h]

lemma dashValue_iff (val s : GoStr) :
    dashValue val s = true ↔ s = val ∨ ∃ r, s = val ++ '-' :: r := by
  unfold dashValue
  split_ifs with h1 h2 h3
  · simp only [beq_iff_eq] at h1
    simp [h1]
  · simp only [beq_iff_eq] at h1
    simp only [Bool.false_eq_true, false_iff]
    rintro (rfl | ⟨r, rfl⟩)
    · exact h1 rfl
    · simp only [List.length_append, List.length_cons] at h2
      omega
  · simp only [Bool.and_eq_true, beq_iff_eq] at h3
    obtain ⟨h3a, h3b⟩ := h3
    simp only [true_iff]
    right
    have hlen : val.length < s.length := by omega
    have hne : s.drop val.length ≠ [] := by
      rw [Ne, List.drop_eq_nil_iff]
      omega
    obtain ⟨d, r, hdr⟩ := List.exists_cons_of_ne_nil hne
    rw [hdr] at h3b
    simp only [List.headD_cons] at h3b
    refine ⟨r, ?_⟩
    conv_lhs => rw [← List.take_append_drop val.length s]
    rw [h3a, hdr, h3b]
  · simp only [beq_iff_eq] at h1
    simp only [Bool.false_eq_true, false_iff]
    rintro (rfl | ⟨r, rfl⟩)
    · exact h1 rfl
    · apply h3
      rw [Bool.and_eq_true]
      constructor
      · rw [beq_iff_eq, List.take_left]
      · rw [beq_iff_eq, List.drop_left]
        rfl

lemma filteredChildren_nil (ofType : Bool) (ndata : GoStr) :
    filteredChildren ofType ndata [] = [] := rfl

lemma filteredChildren_cons (ofType : Bool) (ndata : GoStr) (c : ChildNode) (cs : List ChildNode) :
    filteredChildren ofType ndata (c :: cs) =
      if c.type ≠ NodeType.elementNode ∨ (ofType = true ∧ c.data ≠ ndata) then
        filteredChildren ofType ndata cs
      else c :: filteredChildren ofType ndata cs := by
  unfold filteredChildren
  rw [List.filter_cons]
  by_cases h : c.type ≠ NodeType.elementNode ∨ (ofType = true ∧ c.data ≠ ndata)
  · rw [if_pos h]
    have hb : (decide (c.type = NodeType.elementNode) &&
        (!ofType || decide (c.data = ndata))) = false := by
      cases ofType <;> rcases h with h | ⟨h', h⟩ <;> simp_all
    rw [hb]
    simp
  · rw [if_neg h]
    push_neg at h
    have hb : (decide (c.type = NodeType.elementNode) &&
        (!ofType || decide (c.data = ndata))) = true := by
      cases hot : ofType
      · simp [h.1]
      · simp [h.1, h.2 hot]
    rw [hb]
    simp

lemma onlyScan_eq (ofType : Bool) (ndata : GoStr) (cs : List ChildNode) (count : Int)
    (h : 0 ≤ count) :
    onlyScan ofType ndata cs count =
      decide (count + ((filteredChildren ofType ndata cs).length : Int) = 1) := by
  induction cs generalizing count with
  | nil => simp [onlyScan, filteredChildren_nil]
  | cons c cs ih =>
    rw [onlyScan, filteredChildren_cons]
    by_cases hc : c.type ≠ NodeType.elementNode ∨ (ofType = true ∧ c.data ≠ ndata)
    · rw [if_pos hc, if_pos hc, ih count h]
    · rw [if_neg hc, if_neg hc]
      by_cases hcnt : count + 1 > 1
      · rw [if_pos hcnt]
        symm
        rw [decide_eq_false_iff_not]
        simp only [List.length_cons]
        push_cast
        omega
      · rw [if_neg hcnt, ih (count + 1) (by omega)]
        rw [decide_eq_decide]
        simp only [List.length_cons]
        push_cast
        omega

mutual

lemma matchAll_filter_aux (s : HTree → Bool) : ∀ t, matchAll s t = (preorder t).filter s
  | HTree.node ty da ats cs => by
    rw [matchAll, preorder, List.filter_cons, matchAllList_filter_aux s cs]
    cases hs : s (HTree.node ty da ats cs) <;> simp [hs]

lemma matchAllList_filter_aux (s : HTree → Bool) :
    ∀ l, matchAllList s l = (preorderList l).filter s
  | [] => by rw [matchAllList, preorderList]; rfl
  | c :: cs => by
    rw [matchAllList, preorderList, List.filter_append, matchAll_filter_aux s c,
      matchAllList_filter_aux s cs]

end

lemma firstIndexOf_eq_none (nid : Nat) (l : List ChildNode) :
    firstIndexOf nid l = none ↔ ∀ c ∈ l, c.id ≠ nid := by
  induction l with
  | nil => simp [firstIndexOf]
  | cons c cs ih =>
    rw [firstIndexOf]
    by_cases h : c.id = nid
    · simp [h]
    · simp [h, ih]

lemma nthScan_not_found (last ofType : Bool) (ndata : GoStr) (nid : Nat) :
    ∀ (cs : List ChildNode) (i0 c0 : Int),
      firstIndexOf nid (filteredChildren ofType ndata cs) = none →
      nthScan last ofType ndata nid cs i0 c0 =
        (i0, c0 + ((filteredChildren ofType ndata cs).length : Int)) := by
  intro cs
  induction cs with
  | nil =>
    intro i0 c0 _
    simp [nthScan, filteredChildren_nil]
  | cons c cs ih =>
    intro i0 c0 h
    rw [filteredChildren_cons] at h
    simp only [nthScan]
    rw [filteredChildren_cons]
    by_cases hc : c.type ≠ NodeType.elementNode ∨ (ofType = true ∧ c.data ≠ ndata)
    · rw [if_pos hc] at h
      rw [if_pos hc, if_pos hc]
      exact ih i0 c0 h
    · rw [if_neg hc] at h
      rw [if_neg hc, if_neg hc]
      rw [firstIndexOf] at h
      by_cases hid : c.id = nid
      · rw [if_pos hid] at h
        exact absurd h (by simp)
      · rw [if_neg hid] at h
        rw [if_neg hid]
        have h' : firstIndexOf nid (filteredChildren ofType ndata cs) = none := by
          simpa using h
        rw [ih i0 (c0 + 1) h']
        simp only [List.length_cons, Prod.mk.injEq]
        push_cast
        exact ⟨trivial, by omega⟩

lemma nthScan_found_first (ofType : Bool) (ndata : GoStr) (nid : Nat) :
    ∀ (cs : List ChildNode) (i0 c0 : Int) (m : Nat),
      firstIndexOf nid (filteredChildren ofType ndata cs) = some m →
      nthScan false ofType ndata nid cs i0 c0 =
        (c0 + (m : Int) + 1, c0 + (m : Int) + 1) := by
  intro cs
  induction cs with
  | nil =>
    intro i0 c0 m h
    rw [filteredChildren_nil] at h
    exact absurd h (by simp [firstIndexOf])
  | cons c cs ih =>
    intro i0 c0 m h
    rw [filteredChildren_cons] at h
    simp only [nthScan]
    by_cases hc : c.type ≠ NodeType.elementNode ∨ (ofType = true ∧ c.data ≠ ndata)
    · rw [if_pos hc] at h
      rw [if_pos hc]
      exact ih i0 c0 m h
    · rw [if_neg hc] at h
      rw [if_neg hc]
      rw [firstIndexOf] at h
      by_cases hid : c.id = nid
      · rw [if_pos hid] at h
        have hm : (0 : Nat) = m := by injection h
        rw [if_pos hid]
        rw [if_neg (show ¬ (false = true) by decide)]
        obtain rfl := hm.symm
        simp
      · rw [if_neg hid] at h
        rw [if_neg hid]
        rw [Option.map_eq_some'] at h
        obtain ⟨m', hm', hmm⟩ := h
        rw [ih i0 (c0 + 1) m' hm']
        simp only [Prod.mk.injEq]
        push_cast [← hmm]
        omega

lemma nthScan_found_last (ofType : Bool) (ndata : GoStr) (nid : Nat) :
    ∀ (cs : List ChildNode) (i0 c0 : Int) (m : Nat),
      firstIndexOf nid (filteredChildren ofType ndata cs) = some m →
      (filteredChildren ofType ndata cs).countP (fun c => decide (c.id = nid)) ≤ 1 →
      nthScan true ofType ndata nid cs i0 c0 =
        (c0 + (m : Int) + 1,
          c0 + ((filteredChildren ofType ndata cs).length : Int)) := by
  intro cs
  induction cs with
  | nil =>
    intro i0 c0 m h _
    rw [filteredChildren_nil] at h
    exact absurd h (by simp [firstIndexOf])
  | cons c cs ih =>
    intro i0 c0 m h hcnt
    rw [filteredChildren_cons] at h hcnt
    simp only [nthScan]
    rw [filteredChildren_cons]
    by_cases hc : c.type ≠ NodeType.elementNode ∨ (ofType = true ∧ c.data ≠ ndata)
    · rw [if_pos hc] at h hcnt
      rw [if_pos hc, if_pos hc]
      exact ih i0 c0 m h hcnt
    · rw [if_neg hc] at h hcnt
      rw [if_neg hc, if_neg hc]
      rw [firstIndexOf] at h
      by_cases hid : c.id = nid
      · rw [if_pos hid] at h
        have hm : (0 : Nat) = m := by injection h
        rw [if_pos hid]
        rw [List.countP_cons] at hcnt
        rw [if_pos (show decide (c.id = nid) = true by simp [hid])] at hcnt
        have h0 : (filteredChildren ofType ndata cs).countP
            (fun x => decide (x.id = nid)) = 0 := by omega
        have hnone : firstIndexOf nid (filteredChildren ofType ndata cs) = none := by
          rw [firstIndexOf_eq_none]
          intro x hx
          simpa using List.countP_eq_zero.mp h0 x hx
        rw [if_true]
        rw [nthScan_not_found true ofType ndata nid cs (c0 + 1) (c0 + 1) hnone]
        simp only [List.length_cons, Prod.mk.injEq]
        push_cast [← hm]
        omega
      · rw [if_neg hid] at h
        rw [if_neg hid]
        rw [Option.map_eq_some'] at h
        obtain ⟨m', hm', hmm⟩ := h
        rw [List.countP_cons] at hcnt
        rw [if_neg (show ¬ decide (c.id = nid) = true by simp [hid])] at hcnt
        have hcnt' : (filteredChildren ofType ndata cs).countP
            (fun x => decide (x.id = nid)) ≤ 1 := by omega
        rw [ih i0 (c0 + 1) m' hm' hcnt']
        simp only [List.length_cons, Prod.mk.injEq]
        push_cast [← hmm]
        omega

lemma goNthArith (a j : Int) :
    (if a = 0 then decide (j = 0)
      else decide (j.tmod a = 0) && decide (j.tdiv a ≥ 0)) = true ↔
      ∃ k : Int, 0 ≤ k ∧ j = a * k := by
  by_cases ha : a = 0
  · subst ha
    rw [if_pos rfl]
    simp only [decide_eq_true_eq]
    constructor
    · rintro rfl
      exact ⟨0, le_rfl, by ring⟩
    · rintro ⟨k, _, rfl⟩
      ring
  · rw [if_neg ha]
    simp only [Bool.and_eq_true, decide_eq_true_eq, ge_iff_le]
    constructor
    · rintro ⟨hm, hd⟩
      obtain ⟨k, rfl⟩ := Int.dvd_of_tmod_eq_zero hm
      refine ⟨k, ?_, rfl⟩
      rwa [Int.mul_tdiv_cancel_left k ha] at hd
    · rintro ⟨k, hk, rfl⟩
      refine ⟨Int.mul_tmod_right a k, ?_⟩
      rw [Int.mul_tdiv_cancel_left k ha]
      exact hk

lemma nthArith_neg (a b : Int) (last : Bool) (r : Int × Int) (h : r.1 = -1) :
    nthArith a b last r = false := by
  simp [nthArith, h]

lemma nthArith_eq (a b : Int) (last : Bool) (r : Int × Int) (h : r.1 ≠ -1) :
    nthArith a b last r = true ↔
      ∃ k : Int, 0 ≤ k ∧ (if last then r.2 - r.1 + 1 else r.1) = a * k + b := by
  unfold nthArith
  rw [if_neg h]
  rw [goNthArith a ((if last then r.2 - r.1 + 1 else r.1) - b)]
  exact exists_congr fun k => and_congr_right fun _ => sub_eq_iff_eq_add

lemma nthArith_false_eq (a b : Int) (r q : Int × Int) (h : r.1 = q.1) :
    nthArith a b false r = nthArith a b false q := by
  simp [nthArith, h]

lemma nthArith_pair_first (a b x y : Int) (h : x ≠ -1) :
    nthArith a b false (x, y) = true ↔ ∃ k : Int, 0 ≤ k ∧ x = a * k + b := by
  rw [nthArith_eq a b false (x, y) h]
  rw [if_neg (show ¬ (false = true) by decide)]

lemma nthArith_pair_last (a b x y : Int) (h : x ≠ -1) :
    nthArith a b true (x, y) = true ↔ ∃ k : Int, 0 ≤ k ∧ y - x + 1 = a * k + b := by
  rw [nthArith_eq a b true (x, y) h]
  rw [if_pos rfl]

lemma nthScanFull_fst_frozen (ofType : Bool) (ndata : GoStr) (nid : Nat) :
    ∀ (cs : List ChildNode) (i0 c0 : Int), i0 ≠ -1 →
      (nthScanFull ofType ndata nid cs i0 c0).1 = i0 := by
  intro cs
  induction cs with
  | nil =>
    intro i0 c0 _
    rfl
  | cons c cs ih =>
    intro i0 c0 h
    simp only [nthScanFull]
    by_cases hc : c.type ≠ NodeType.elementNode ∨ (ofType = true ∧ c.data ≠ ndata)
    · rw [if_pos hc]
      exact ih i0 c0 h
    · rw [if_neg hc]
      have hg : ¬ (c.id = nid ∧ i0 = -1) := fun hand => h hand.2
      rw [if_neg hg]
      exact ih i0 (c0 + 1) h

lemma nthScan_full_fst_agree (ofType : Bool) (ndata : GoStr) (nid : Nat) :
    ∀ (cs : List ChildNode) (c0 : Int), 0 ≤ c0 →
      (nthScan false ofType ndata nid cs (-1) c0).1 =
        (nthScanFull ofType ndata nid cs (-1) c0).1 := by
  intro cs
  induction cs with
  | nil =>
    intro c0 _
    rfl
  | cons c cs ih =>
    intro c0 h
    simp only [nthScan, nthScanFull]
    by_cases hc : c.type ≠ NodeType.elementNode ∨ (ofType = true ∧ c.data ≠ ndata)
    · rw [if_pos hc, if_pos hc]
      exact ih c0 h
    · rw [if_neg hc, if_neg hc]
      by_cases hid : c.id = nid
      · rw [if_pos hid]
        rw [if_pos (show c.id = nid ∧ True from ⟨hid, trivial⟩)]
        rw [if_neg (show ¬ (false = true) by decide)]
        rw [nthScanFull_fst_frozen ofType ndata nid cs (c0 + 1) (c0 + 1) (by omega)]
      · rw [if_neg hid]
        rw [if_neg (show ¬ (c.id = nid ∧ True) from fun hand => hid hand.1)]
        exact ih (c0 + 1) (by omega)

/-! Claim theorems. -/

/-- Claim C8: for every matcher m and every node n, including non-element nodes
and nodes with no parent, negatedSelector(m) matches n if and only if m
does not match n — the negated matcher matches exactly the complement of
m over all nodes. -/
theorem negatedSelector_complement (m : Matcher) (n : HtmlNode) :
    negatedSelector m n = true ↔ ¬ (m n = true) := by
  simp [negatedSelector]

/-- Claim C2 (amended): attributeSelector(key, f) matches n if and only if n is
an element node with at least one attribute whose key is byte-for-byte
equal to the ASCII-lowercased selector key (the selector key is folded at
construction; the node's attribute key is compared verbatim) and whose
value satisfies f; non-element nodes never match, and a match on any one
of several attributes sharing the key suffices. -/
theorem attributeSelector_matches_iff (key : GoStr) (f : GoStr → Bool) (n : HtmlNode) :
    attributeSelector key f n = true ↔
      n.type = NodeType.elementNode ∧
        ∃ a ∈ n.attr, a.1 = toLowerASCII key ∧ f a.2 = true :=
  attrSel_iff key f n

/-- Claim C2 (counterexample): the key comparison is not case-insensitive over
arbitrary nodes — an element node carrying the attribute key "A" is not
matched by attributeSelector("A", always-true), although the two keys are
equal up to ASCII case. -/
theorem attributeSelector_case_cex :
    ¬ (attributeSelector ['A'] (fun _ => true)
          (HtmlNode.mk 0 NodeType.elementNode [] [(['A'], [])] none) = true ↔
        ((HtmlNode.mk 0 NodeType.elementNode [] [(['A'], [])] none).type =
            NodeType.elementNode ∧
          ∃ a ∈ (HtmlNode.mk 0 NodeType.elementNode [] [(['A'], [])] none).attr,
            toLowerASCII a.1 = toLowerASCII ['A'] ∧
              (fun _ : GoStr => true) a.2 = true)) := by
  decide

/-- Claim C6: attributeDashmatchSelector(key, val) matches n if and only if n
has a matching attribute (per attributeSelector) whose value either
equals val exactly, or is strictly longer than val, starts with val, and
has a hyphen as the character immediately following that prefix. -/
theorem attributeDashmatchSelector_matches_iff (key val : GoStr) (n : HtmlNode) :
    attributeDashmatchSelector key val n = true ↔
      n.type = NodeType.elementNode ∧
        ∃ a ∈ n.attr, a.1 = toLowerASCII key ∧
          (a.2 = val ∨ ∃ r, a.2 = val ++ '-' :: r) := by
  unfold attributeDashmatchSelector
  rw [attrSel_iff]
  constructor
  · rintro ⟨ht, a, ha, hk, hv⟩
    exact ⟨ht, a, ha, hk, (dashValue_iff val a.2).mp hv⟩
  · rintro ⟨ht, a, ha, hk, hv⟩
    exact ⟨ht, a, ha, hk, (dashValue_iff val a.2).mpr hv⟩

/-- Claim C7: onlyChildSelector(ofType) matches n if and only if n is an
element node with a non-null parent and the number of the parent's
element children (restricted to children with the same name as n when
ofType is true) is exactly 1; non-element siblings are excluded from the
count. -/
theorem onlyChildSelector_matches_iff (ofType : Bool) (n : HtmlNode) :
    onlyChildSelector ofType n = true ↔
      n.type = NodeType.elementNode ∧
        ∃ p, n.parent = some p ∧ (filteredChildren ofType n.data p.child).length = 1 := by
  unfold onlyChildSelector
  by_cases ht : n.type = NodeType.elementNode
  · rw [if_neg (fun hne => hne ht)]
    cases hp : n.parent with
    | none => simp [hp, ht]
    | some p =>
      simp only [hp]
      rw [onlyScan_eq ofType n.data p.child 0 le_rfl]
      simp [ht]
  · simp [ht]

/-- Claim C4: goCompile returns a matcher exactly when the parse consumed the
entire input; a parse failure is propagated, leftover bytes after a
successfully parsed prefix give an error carrying the selector text and
the count of leftover bytes, and the error cases carry no matcher. -/
theorem goCompile_spec (parse : GoStr → Except GoStr (Matcher × Nat)) (sel : GoStr) :
    ((∃ m, goCompile parse sel = Except.ok m) ↔
        ∃ m i, parse sel = Except.ok (m, i) ∧ sel.length ≤ i) ∧
      (∀ e, parse sel = Except.error e →
        goCompile parse sel = Except.error (CompileError.parseFailure e)) ∧
      (∀ m i, parse sel = Except.ok (m, i) → i < sel.length →
        goCompile parse sel = Except.error (CompileError.leftover sel (sel.length - i))) := by
  unfold goCompile
  cases hps : parse sel with
  | error e => simp [hps]
  | ok mi =>
    obtain ⟨m, i⟩ := mi
    by_cases h : i < sel.length
    · simp only [hps, if_pos h]
      refine ⟨?_, ?_, ?_⟩
      · simp only [iff_iff_implies_and_implies]
        constructor
        · rintro ⟨m', hm'⟩
          cases hm'
        · rintro ⟨m', i', hmi, hle⟩
          rw [Except.ok.injEq, Prod.mk.injEq] at hmi
          omega
      · intro e he
        cases he
      · intro m' i' hmi hlt
        rw [Except.ok.injEq, Prod.mk.injEq] at hmi
        obtain ⟨rfl, rfl⟩ := hmi
        rfl
    · simp only [hps, if_neg h]
      refine ⟨?_, ?_, ?_⟩
      · constructor
        · intro _
          exact ⟨m, i, rfl, by omega⟩
        · intro _
          exact ⟨m, rfl⟩
      · intro e he
        cases he
      · intro m' i' hmi hlt
        rw [Except.ok.injEq, Prod.mk.injEq] at hmi
        omega

/-- Claim C4 (witness): instantiation at a parse run that stops after one
of the three bytes of the input, giving the leftover error with count 2. -/
theorem goCompile_spec_witness :
    goCompile (fun _ => Except.ok ((fun _ => true : Matcher), 1)) ['d', 'i', 'v'] =
      Except.error (CompileError.leftover ['d', 'i', 'v'] 2) :=
  (goCompile_spec (fun _ => Except.ok ((fun _ => true : Matcher), 1)) ['d', 'i', 'v']).2.2
    (fun _ => true) 1 rfl (by decide)

/-- Claim C5: MatchAll performs a pre-order traversal — its output is exactly
the pre-order listing of the tree filtered by the matcher, i.e. the node
itself tested first followed by the concatenation of the results on the
children in document order; hence every matched node precedes all of its
matched descendants in the output. -/
theorem matchAll_eq_filter_preorder (s : HTree → Bool) (t : HTree) :
    matchAll s t = (preorder t).filter s :=
  matchAll_filter_aux s t

lemma splitOnSeps_no_seps (s : GoStr) (h : ∀ c ∈ s, c ∉ seps) : splitOnSeps s = [s] := by
  induction s with
  | nil => rfl
  | cons c cs ih =>
    rw [splitOnSeps]
    rw [if_neg (h c (by simp))]
    rw [ih (fun x hx => h x (by simp [hx]))]

lemma splitOnSeps_ne_nil (s : GoStr) : splitOnSeps s ≠ [] := by
  cases s with
  | nil => simp [splitOnSeps]
  | cons c cs =>
    rw [splitOnSeps]
    by_cases h : c ∈ seps
    · simp [h]
    · rw [if_neg h]
      cases hs : splitOnSeps cs <;> simp

lemma splitOnSeps_chunk (t : GoStr) (d : Char) (r : GoStr)
    (ht : ∀ c ∈ t, c ∉ seps) (hd : d ∈ seps) :
    splitOnSeps (t ++ d :: r) = t :: splitOnSeps r := by
  induction t with
  | nil =>
    rw [List.nil_append, splitOnSeps, if_pos hd]
  | cons c cs ih =>
    rw [List.cons_append, splitOnSeps]
    rw [if_neg (ht c (by simp))]
    rw [ih (fun x hx => ht x (by simp [hx]))]

lemma indexAny_eq_none (s : GoStr) : indexAny s = none ↔ ∀ c ∈ s, c ∉ seps := by
  induction s with
  | nil => simp [indexAny]
  | cons c cs ih =>
    rw [indexAny]
    by_cases h : c ∈ seps
    · simp [h]
    · simp [h, ih]

lemma indexAny_eq_some (s : GoStr) : ∀ i, indexAny s = some i →
    ∃ t d r, s = t ++ d :: r ∧ t.length = i ∧ (∀ c ∈ t, c ∉ seps) ∧ d ∈ seps := by
  induction s with
  | nil =>
    intro i h
    exact absurd h (by simp [indexAny])
  | cons c cs ih =>
    intro i h
    rw [indexAny] at h
    by_cases hc : c ∈ seps
    · rw [if_pos hc] at h
      have hi : (0 : Nat) = i := by injection h
      exact ⟨[], c, cs, rfl, hi, by simp, hc⟩
    · rw [if_neg hc] at h
      rw [Option.map_eq_some'] at h
      obtain ⟨j, hj, hji⟩ := h
      obtain ⟨t, d, r, hs, hlen, hts, hds⟩ := ih j hj
      refine ⟨c :: t, d, r, by rw [hs]; rfl, by simp [hlen, hji], ?_, hds⟩
      intro x hx
      rcases List.mem_cons.mp hx with rfl | hx'
      · exact hc
      · exact hts x hx'

lemma includesLoop_cons_none (val : GoStr) (c : Char) (cs : GoStr)
    (h : indexAny (c :: cs) = none) :
    includesLoop val (c :: cs) = ((c :: cs) == val) := by
  rw [includesLoop, h]

lemma includesLoop_cons_some (val : GoStr) (c : Char) (cs : GoStr) (i : Nat)
    (h : indexAny (c :: cs) = some i) :
    includesLoop val (c :: cs) =
      ((c :: cs).take i == val || includesLoop val ((c :: cs).drop (i + 1))) := by
  rw [includesLoop, h]

lemma includesLoop_iff_mem_split (val : GoStr) (hval : val ≠ []) (s : GoStr) :
    includesLoop val s = true ↔ val ∈ splitOnSeps s := by
  cases s with
  | nil =>
    rw [includesLoop]
    simp [splitOnSeps, hval]
  | cons c cs =>
    cases hidx : indexAny (c :: cs) with
    | none =>
      rw [includesLoop_cons_none val c cs hidx]
      have hns : ∀ x ∈ c :: cs, x ∉ seps := (indexAny_eq_none _).mp hidx
      rw [splitOnSeps_no_seps _ hns]
      rw [beq_iff_eq, List.mem_singleton]
      exact eq_comm
    | some i =>
      rw [includesLoop_cons_some val c cs i hidx]
      obtain ⟨t, d, r, hs, hlen, hts, hds⟩ := indexAny_eq_some (c :: cs) i hidx
      rw [hs]
      rw [splitOnSeps_chunk t d r hts hds]
      rw [← hlen]
      rw [List.take_left]
      have hdrop : (t ++ d :: r).drop (t.length + 1) = r := by
        rw [show t ++ d :: r = (t ++ [d]) ++ r by simp]
        rw [show t.length + 1 = (t ++ [d]).length by simp]
        exact List.drop_left _ _
      rw [hdrop]
      rw [Bool.or_eq_true, beq_iff_eq]
      rw [includesLoop_iff_mem_split val hval r]
      rw [List.mem_cons]
      exact or_congr eq_comm Iff.rfl
termination_by s.length
decreasing_by
  have hlen2 := congrArg List.length hs
  simp only [List.length_append, List.length_cons] at hlen2
  simp only [List.length_cons]
  omega

/-- Claim C1: nthChildSelector(a, b, last, ofType) matches n if and only if n
is an element node with a non-null parent whose 1-based position i among
the parent's element children (same-name children only when ofType;
mirrored to count - i + 1 when last) is reachable as a*k + b for some
k >= 0, which is what the code's test (i-b == 0 when a == 0, else
(i-b) % a == 0 and (i-b) / a >= 0 with truncated division) amounts to.
The hypothesis pins the well-formedness of real trees: a node occurs at
most once in its parent's child list. -/
theorem nthChildSelector_matches_iff (a b : Int) (last ofType : Bool) (n : HtmlNode)
    (hw : ∀ p, n.parent = some p →
      p.child.countP (fun c => decide (c.id = n.id)) ≤ 1) :
    nthChildSelector a b last ofType n = true ↔
      n.type = NodeType.elementNode ∧
        ∃ p, n.parent = some p ∧
          ∃ m, firstIndexOf n.id (filteredChildren ofType n.data p.child) = some m ∧
            ∃ k : Int, 0 ≤ k ∧
              (if last then
                  ((filteredChildren ofType n.data p.child).length : Int) - ((m : Int) + 1) + 1
                else (m : Int) + 1) = a * k + b := by
  unfold nthChildSelector
  by_cases ht : n.type = NodeType.elementNode
  · rw [if_neg (fun hne => hne ht)]
    cases hp : n.parent with
    | none => simp [hp, ht]
    | some p =>
      simp only [hp, ht, true_and, Option.some.injEq, exists_eq_left']
      have hcnt : (filteredChildren ofType n.data p.child).countP
          (fun c => decide (c.id = n.id)) ≤ 1 :=
        le_trans (List.Sublist.countP_le _ (List.filter_sublist _)) (hw p hp)
      cases hfi : firstIndexOf n.id (filteredChildren ofType n.data p.child) with
      | none =>
        rw [nthScan_not_found last ofType n.data n.id p.child (-1) 0 hfi]
        rw [nthArith_neg a b last _ rfl]
        simp
      | some m =>
        simp only [Option.some.injEq, exists_eq_left']
        cases last
        · rw [nthScan_found_first ofType n.data n.id p.child (-1) 0 m hfi]
          rw [nthArith_pair_first a b (0 + (m : Int) + 1) (0 + (m : Int) + 1) (by omega)]
          rw [if_neg (show ¬ (false = true) by decide)]
          exact exists_congr fun k => and_congr_right fun _ =>
            ⟨fun hh => by linarith, fun hh => by linarith⟩
        · rw [nthScan_found_last ofType n.data n.id p.child (-1) 0 m hfi hcnt]
          rw [nthArith_pair_last a b (0 + (m : Int) + 1)
            (0 + ((filteredChildren ofType n.data p.child).length : Int)) (by omega)]
          rw [if_pos rfl]
          exact exists_congr fun k => and_congr_right fun _ =>
            ⟨fun hh => by linarith, fun hh => by linarith⟩
  · simp [ht]

/-- Claim C1 (witness): instantiation at a concrete well-formed node, the only
element child of its parent, against the selector 2n+1. -/
theorem nthChildSelector_matches_iff_witness :
    (∀ p, wNode1.parent = some p →
        p.child.countP (fun c => decide (c.id = wNode1.id)) ≤ 1) ∧
      (nthChildSelector 2 1 false false wNode1 = true ↔
        wNode1.type = NodeType.elementNode ∧
          ∃ p, wNode1.parent = some p ∧
            ∃ m, firstIndexOf wNode1.id (filteredChildren false wNode1.data p.child) = some m ∧
              ∃ k : Int, 0 ≤ k ∧
                (if false then
                    ((filteredChildren false wNode1.data p.child).length : Int) -
                      ((m : Int) + 1) + 1
                  else (m : Int) + 1) = 2 * k + 1) := by
  have h : ∀ p, wNode1.parent = some p →
      p.child.countP (fun c => decide (c.id = wNode1.id)) ≤ 1 := by
    intro p hp
    have hp' : some (ParentNode.mk [ChildNode.mk 5 NodeType.elementNode ['d']]) = some p := hp
    injection hp' with hh
    rw [← hh]
    decide
  exact ⟨h, nthChildSelector_matches_iff 2 1 false false wNode1 h⟩

/-- Claim C9: for an element node that carries a parent back-reference but does
not occur in that parent's child list, nthChildSelector takes the
position-not-found branch and returns false rather than failing. -/
theorem nthChildSelector_orphan_false (a b : Int) (last ofType : Bool) (n : HtmlNode)
    (p : ParentNode) (ht : n.type = NodeType.elementNode) (hp : n.parent = some p)
    (horph : ∀ c ∈ p.child, c.id ≠ n.id) :
    nthChildSelector a b last ofType n = false := by
  have hfi : firstIndexOf n.id (filteredChildren ofType n.data p.child) = none := by
    rw [firstIndexOf_eq_none]
    intro c hc
    exact horph c (List.mem_of_mem_filter hc)
  unfold nthChildSelector
  rw [if_neg (fun hne => hne ht)]
  simp only [hp]
  rw [nthScan_not_found last ofType n.data n.id p.child (-1) 0 hfi]
  exact nthArith_neg a b last _ rfl

/-- Claim C9 (witness): instantiation at a concrete element node whose parent
back-reference names a parent that does not list the node as a child. -/
theorem nthChildSelector_orphan_false_witness :
    wNode9.type = NodeType.elementNode ∧
      nthChildSelector 2 0 true true wNode9 = false := by
  refine ⟨rfl, ?_⟩
  refine nthChildSelector_orphan_false 2 0 true true wNode9
    (ParentNode.mk [ChildNode.mk 2 NodeType.elementNode ['d']]) rfl rfl ?_
  intro c hc
  rw [List.mem_singleton] at hc
  subst hc
  decide

/-- Claim C10: with last false, the early-break scan of nthChildSelector gives
the same verdict on every node as the naive variant that scans all of
the parent's children to compute the full type-filtered count, because
the count is only consulted when last is true. -/
theorem nthChildSelector_earlyBreak_eq_fullScan (a b : Int) (ofType : Bool) (n : HtmlNode) :
    nthChildSelector a b false ofType n = nthChildSelectorFull a b false ofType n := by
  unfold nthChildSelector nthChildSelectorFull
  by_cases ht : n.type ≠ NodeType.elementNode
  · rw [if_pos ht, if_pos ht]
  · rw [if_neg ht, if_neg ht]
    cases hp : n.parent with
    | none => simp [hp]
    | some p =>
      simp only [hp]
      exact nthArith_false_eq a b _ _
        (nthScan_full_fst_agree ofType n.data n.id p.child 0 le_rfl)

/-- Claim C3 (counterexample): with an empty val, the claim's reading fails —
the attribute value "a " splits into the fields "a" and "", so the split
list contains the empty string, yet the selector does not match, because
the loop never compares the trailing empty field. -/
theorem attributeIncludesSelector_empty_val_cex :
    ¬ (attributeIncludesSelector ['k'] []
          (HtmlNode.mk 0 NodeType.elementNode [] [(['k'], ['a', ' '])] none) = true ↔
        ((HtmlNode.mk 0 NodeType.elementNode [] [(['k'], ['a', ' '])] none).type =
            NodeType.elementNode ∧
          ∃ a ∈ (HtmlNode.mk 0 NodeType.elementNode [] [(['k'], ['a', ' '])] none).attr,
            a.1 = toLowerASCII ['k'] ∧ ([] : GoStr) ∈ splitOnSeps a.2)) := by
  have hloop : includesLoop ([] : GoStr) ['a', ' '] = false := by
    rw [includesLoop_cons_some ([] : GoStr) 'a' [' '] 1 (by decide)]
    rw [show (['a', ' '] : GoStr).take 1 = ['a'] from rfl]
    rw [show (['a', ' '] : GoStr).drop 2 = [] from rfl]
    rw [includesLoop]
    decide
  have hlhs : attributeIncludesSelector ['k'] []
      (HtmlNode.mk 0 NodeType.elementNode [] [(['k'], ['a', ' '])] none) = false := by
    unfold attributeIncludesSelector attributeSelector
    simp [hloop]
  intro hiff
  have hrhs := hiff.mpr
    ⟨rfl, (⟨['k'], ['a', ' ']⟩ : GoStr × GoStr), by simp, by decide, by decide⟩
  rw [hlhs] at hrhs
  exact absurd hrhs (by decide)

/-- Claim C3 (amended): for a nonempty val, attributeIncludesSelector(key, val)
matches n if and only if n has a matching attribute (per
attributeSelector) whose value, split into a list on the five separator
characters space, tab, CR, LF and form-feed, contains an element exactly
equal to val; in particular an empty attribute value never matches.  (An
empty val is excluded: the loop never compares a trailing empty field,
so the claim's split reading fails there.) -/
theorem attributeIncludesSelector_matches_iff (key val : GoStr) (n : HtmlNode)
    (hval : val ≠ []) :
    attributeIncludesSelector key val n = true ↔
      n.type = NodeType.elementNode ∧
        ∃ a ∈ n.attr, a.1 = toLowerASCII key ∧ val ∈ splitOnSeps a.2 := by
  unfold attributeIncludesSelector
  rw [attrSel_iff]
  constructor
  · rintro ⟨ht, a, ha, hk, hv⟩
    exact ⟨ht, a, ha, hk, (includesLoop_iff_mem_split val hval a.2).mp hv⟩
  · rintro ⟨ht, a, ha, hk, hv⟩
    exact ⟨ht, a, ha, hk, (includesLoop_iff_mem_split val hval a.2).mpr hv⟩

/-- Claim C3 (witness): instantiation at the nonempty val "b" against a node
with the attribute value "a b". -/
theorem attributeIncludesSelector_matches_iff_witness :
    (['b'] : GoStr) ≠ [] ∧
      (attributeIncludesSelector ['c'] ['b']
          (HtmlNode.mk 0 NodeType.elementNode [] [(['c'], ['a', ' ', 'b'])] none) = true ↔
        (HtmlNode.mk 0 NodeType.elementNode [] [(['c'], ['a', ' ', 'b'])] none).type =
            NodeType.elementNode ∧
          ∃ a ∈ (HtmlNode.mk 0 NodeType.elementNode [] [(['c'], ['a', ' ', 'b'])] none).attr,
            a.1 = toLowerASCII ['c'] ∧ (['b'] : GoStr) ∈ splitOnSeps a.2) :=
  ⟨by decide, attributeIncludesSelector_matches_iff ['c'] ['b'] _ (by decide)⟩

end Cascadia
